import Mathlib

/-!
Shallow embedding of `cmux.go` from wzshiming/shunt: a connection-level
protocol multiplexer that sniffs the leading bytes of a stream against
registered byte patterns and dispatches to the best-matching handler,
replaying the sniffed bytes to the chosen handler.

Bytes are modelled as `Nat`; handlers are an opaque type parameter `H`
(the Go `Handler` interface); stream read errors are an opaque type
parameter `E`.  A stream (`io.Reader` / `net.Conn`) is modelled as the
list of results its successive `Read` calls produce: each successful
read delivers a chunk of bytes (capped by the space the caller offers),
and a failing read delivers an error.  An exhausted list behaves as a
clean end of stream: every further read returns zero bytes and no error.
-/

namespace Cmux

/-- One planned outcome of a `Read` call on the underlying stream:
either a chunk of bytes delivered successfully (possibly empty, which
models a zero-byte, error-free read), or a read error `e`. -/
inductive ReadRes (E : Type) where
  | chunk (bs : List Nat)
  | fail (e : E)
  deriving DecidableEq

/-- The bytes a stream delivers when read to exhaustion or to its first
error, in order. -/
def readerBytes {E : Type} : List (ReadRes E) → List Nat
  | [] => []
  | .chunk bs :: r => bs ++ readerBytes r
  | .fail _ :: _ => []

/-- Errors returned by `CMux.Handler`: the `ErrNotFound` sentinel from
`cmux.go`, or a propagated stream read error. -/
inductive CErr (E : Type) where
  | notFound
  | readErr (e : E)
  deriving DecidableEq

/-- The pattern index.  Modelled from the spec: the external
`github.com/wzshiming/trie` collaborator (its source is not part of this
repository) is represented by its contents — the association list of
registered patterns to handlers, with distinct keys.  A traversal cursor
is represented by its path from the root, which in the matching loop
always equals the bytes consumed so far. -/
abbrev Trie (H : Type) := List (List Nat × H)

/-- Modelled from the spec: `insert(pattern, handler)` / `trie.Put` —
registers a pattern; overwriting an identical pattern replaces its
handler (last write wins). -/
def triePut {H : Type} (t : Trie H) (k : List Nat) (v : H) : Trie H :=
  (t.filter fun e => e.1 ≠ k) ++ [(k, v)]

/-- Modelled from the spec: `size()` / `trie.Size` — the number of
distinct registered patterns. -/
def trieSize {H : Type} (t : Trie H) : Nat := t.length

/-- Modelled from the spec: `maxPatternLength()` / `trie.Depth` — the
length of the longest registered pattern (0 when none). -/
def trieDepth {H : Type} (t : Trie H) : Nat :=
  t.foldr (fun e acc => max e.1.length acc) 0

/-- The handler registered for exactly the byte path `b`, if any. -/
def trieFind {H : Type} (t : Trie H) (b : List Nat) : Option H :=
  (t.find? fun e => e.1 == b).map (·.2)

/-- Whether some registered pattern properly extends the byte path `b`
(the index still has something left to try past `b`). -/
def extendsFurther {H : Type} (t : Trie H) (b : List Nat) : Bool :=
  t.any fun e => b != e.1 && b.isPrefixOf e.1

/-- Whether the byte path `b` stays inside the index, i.e. is a
(not necessarily proper) leading part of some registered pattern. -/
def staysIn {H : Type} (t : Trie H) (b : List Nat) : Bool :=
  t.any fun e => b.isPrefixOf e.1

/-- Modelled from the spec: `advance(cursor, chunk)` / `Mapping.Get` —
given the cursor path and a chunk of newly read bytes, returns
(handler-at-this-point-or-none, next-cursor-or-none, matched).  The
handler is non-none only if the bytes consumed so far exactly equal some
registered pattern; the next cursor is none once no registered pattern
can be extended further; matched is true if the chunk is a valid
continuation of at least one registered pattern. -/
def trieGet {H : Type} (t : Trie H) (path c : List Nat) :
    Option H × Option (List Nat) × Bool :=
  (trieFind t (path ++ c),
   if extendsFurther t (path ++ c) then some (path ++ c) else none,
   staysIn t (path ++ c))

/-- Outcome of the matching loop of `CMux.Handler` (`cmux.go` lines
66-85): either the loop broke out (`done`), carrying the remembered
handler, the bytes read so far (`prefix[:off]`), and the remaining
stream state, or a read returned an error which the code propagates
(`fail`), carrying the error, the bytes that had been read before the
failing read (recorded by the model for specification purposes only —
the Go code discards them), and the remaining stream state. -/
inductive LoopRes (H E : Type) where
  | done (hand : Option H) (acc : List Nat) (rest : List (ReadRes E))
  | fail (e : E) (acc : List Nat) (rest : List (ReadRes E))
  deriving DecidableEq

/-- The bytes read from the stream by the time the loop ended. -/
def LoopRes.bytes {H E : Type} : LoopRes H E → List Nat
  | .done _ acc _ => acc
  | .fail _ acc _ => acc

/-- The matching loop of `CMux.Handler` (`cmux.go` lines 66-85).
`d` is the buffer size `m.trie.Depth()`; `hand` is the remembered
`handler`; `acc` is `prefix[:off]` (the cursor `parent`'s path always
equals `acc`).  Each read delivers at most `d - acc.length` bytes (the
space of `prefix[off:]`); a longer planned chunk keeps its leftover in
the stream.  When the buffer is full and the loop continues, the next
read necessarily returns zero bytes, breaking the loop; that silent
iteration is fused into the branch that produced the full buffer. -/
def matchLoop {H E : Type} (t : Trie H) (d : Nat) :
    Option H → List Nat → List (ReadRes E) → LoopRes H E
  | hand, acc, [] => .done hand acc []
  | _, acc, .fail e :: r => .fail e acc r
  | hand, acc, .chunk bs :: r =>
    let c := bs.take (d - acc.length)
    if c = [] then
      .done hand acc (if bs = [] then r else .chunk bs :: r)
    else
      let g := trieGet t acc c
      let hand2 := if g.2.2 && g.1.isSome then g.1 else hand
      match g.2.1 with
      | none =>
          .done hand2 (acc ++ c)
            (if bs.length ≤ d - acc.length then r
             else .chunk (bs.drop (d - acc.length)) :: r)
      | some p2 =>
          if bs.length ≤ d - acc.length then matchLoop t d hand2 p2 r
          else .done hand2 (acc ++ c) (.chunk (bs.drop (d - acc.length)) :: r)

/-- `CMux` (`cmux.go` lines 28-31): the pattern index and the optional
fallback handler. -/
structure CMux (H : Type) where
  trie : Trie H
  notFound : Option H

/-- `NewCMux` (`cmux.go` lines 33-39). -/
def NewCMux {H : Type} : CMux H := ⟨[], none⟩

/-- `CMux.NotFound` (`cmux.go` lines 41-45): sets the fallback handler. -/
def CMux.NotFound {H : Type} (m : CMux H) (handler : H) : CMux H :=
  { m with notFound := some handler }

/-- `CMux.HandlePrefix` (`cmux.go` lines 47-53): registers every listed
pattern for `handler`. -/
def CMux.HandlePrefix {H : Type} (m : CMux H) (handler : H)
    (ps : List (List Nat)) : CMux H :=
  { m with trie := ps.foldl (fun t k => triePut t k handler) m.trie }

/-- The result of `CMux.Handler`: the Go triple
`(handler Handler, prefix []byte, err error)` plus, as model
bookkeeping, the state of the stream after the call (in Go this is
implicit in the advanced read position of the `io.Reader`). -/
structure HandlerOut (H E : Type) where
  handler : Option H
  consumed : List Nat
  error : Option (CErr E)
  rest : List (ReadRes E)
  deriving DecidableEq

/-- `CMux.Handler` (`cmux.go` lines 55-93): resolves a handler for the
stream `r`, returning the handler, the bytes consumed while deciding,
and an error. -/
def CMux.Handler {H E : Type} (m : CMux H) (r : List (ReadRes E)) :
    HandlerOut H E :=
  if trieSize m.trie = 0 then
    match m.notFound with
    | none => ⟨none, [], some .notFound, r⟩
    | some h => ⟨some h, [], none, r⟩
  else
    match matchLoop m.trie (trieDepth m.trie) none [] r with
    | .fail e _ rest => ⟨none, [], some (.readErr e), rest⟩
    | .done hand acc rest =>
      match hand with
      | some h => ⟨some h, acc, none, rest⟩
      | none =>
        match m.notFound with
        | none => ⟨none, acc, some .notFound, rest⟩
        | some nf => ⟨some nf, acc, none, rest⟩

/-- Modelled from the spec: `UnreadConn(conn, buf)` / `wrap(stream,
prefix)` (its source is not part of this repository) — the first reads
of the wrapped stream are satisfied from `buf`, in order and in full,
before any read touches the underlying stream; with an empty `buf` it
delegates immediately. -/
def UnreadConn {E : Type} (r : List (ReadRes E)) (buf : List Nat) :
    List (ReadRes E) :=
  if buf = [] then r else .chunk buf :: r

/-- Outcome of `CMux.ServeConn`: the stream was closed with no handler
invoked, or exactly one handler was invoked with the wrapped stream. -/
inductive ServeOut (H E : Type) where
  | closed
  | served (h : H) (conn : List (ReadRes E))
  deriving DecidableEq

/-- `CMux.ServeConn` (`cmux.go` lines 95-104): resolve, then on error
close the stream; on success wrap the stream with the consumed bytes and
invoke the resolved handler.  (`Handler` never returns no error together
with no handler, so the last branch is unreachable; the Go code would
dereference a nil handler there.) -/
def CMux.ServeConn {H E : Type} (m : CMux H) (conn : List (ReadRes E)) :
    ServeOut H E :=
  let out := m.Handler conn
  match out.error with
  | some _ => .closed
  | none =>
    match out.handler with
    | some h => .served h (UnreadConn out.rest out.consumed)
    | none => .closed

/-! ## Basic lemmas about the pattern index -/

theorem trieFind_mem {H : Type} {t : Trie H} {b : List Nat} {h : H}
    (hf : trieFind t b = some h) : (b, h) ∈ t := by
  unfold trieFind at hf
  cases hfind : t.find? (fun e => e.1 == b) with
  | none => rw [hfind] at hf; exact absurd hf (by simp)
  | some e =>
    rw [hfind] at hf
    have hmem := List.mem_of_find?_eq_some hfind
    have hp : e.1 = b := by simpa using List.find?_some hfind
    have h2 : e.2 = h := by simpa using hf
    have : e = (b, h) := by
      cases e; simp only [Prod.mk.injEq]; exact ⟨hp, h2⟩
    rwa [this] at hmem

theorem mem_length_le_depth {H : Type} {t : Trie H} {k : List Nat} {v : H}
    (hm : (k, v) ∈ t) : k.length ≤ trieDepth t := by
  induction t with
  | nil => cases hm
  | cons e t ih =>
    have hd : trieDepth (e :: t) = max e.1.length (trieDepth t) := rfl
    rcases List.mem_cons.mp hm with he | ht
    · rw [hd, ← he]; exact Nat.le_max_left _ _
    · rw [hd]; exact Nat.le_trans (ih ht) (Nat.le_max_right _ _)

theorem trie_ne_nil_of_mem {H : Type} {t : Trie H} {e : List Nat × H}
    (hm : e ∈ t) : t ≠ [] := by
  intro h; rw [h] at hm; cases hm

theorem staysIn_of_mem {H : Type} {t : Trie H} {k : List Nat} {v : H}
    (hm : (k, v) ∈ t) {b : List Nat} (hb : b <+: k) : staysIn t b = true := by
  unfold staysIn
  rw [List.any_eq_true]
  exact ⟨(k, v), hm, by simpa using hb⟩

theorem extendsFurther_of_mem {H : Type} {t : Trie H} {k : List Nat} {v : H}
    (hm : (k, v) ∈ t) {b : List Nat} (hb : b <+: k) (hne : b ≠ k) :
    extendsFurther t b = true := by
  unfold extendsFurther
  rw [List.any_eq_true]
  refine ⟨(k, v), hm, ?_⟩
  simp only [Bool.and_eq_true, bne_iff_ne, ne_eq]
  exact ⟨hne, by simpa using hb⟩

/-! ## Unfolding lemmas for the matching loop -/

theorem matchLoop_nil {H E : Type} (t : Trie H) (d : Nat) (hand : Option H)
    (acc : List Nat) :
    matchLoop (E := E) t d hand acc [] = .done hand acc [] := rfl

theorem matchLoop_fail {H E : Type} (t : Trie H) (d : Nat) (hand : Option H)
    (acc : List Nat) (e : E) (r : List (ReadRes E)) :
    matchLoop t d hand acc (.fail e :: r) = .fail e acc r := rfl

theorem matchLoop_chunk_nil {H E : Type} (t : Trie H) (d : Nat) (hand : Option H)
    (acc : List Nat) (r : List (ReadRes E)) :
    matchLoop t d hand acc (.chunk [] :: r) = .done hand acc r := by
  simp [matchLoop]

/-- The handler remembered after one `Get`: the handler found exactly at
the extended path if there is one, otherwise the old one (`cmux.go`
lines 75-78). -/
def updateHand {H : Type} (found : Option H) (hand : Option H) : Option H :=
  match found with
  | some x => some x
  | none => hand

/-- A successful read whose chunk fits in the remaining buffer space:
the chunk is taken whole, the remembered handler is updated from the
index at the extended path, and the loop continues exactly when some
registered pattern extends further. -/
theorem matchLoop_chunk_fits {H E : Type} (t : Trie H) (d : Nat) (hand : Option H)
    (acc bs : List Nat) (r : List (ReadRes E))
    (hbs : bs ≠ []) (hlen : acc.length + bs.length ≤ d) :
    matchLoop t d hand acc (.chunk bs :: r) =
      (if extendsFurther t (acc ++ bs) then
        matchLoop t d (updateHand (trieFind t (acc ++ bs)) hand) (acc ++ bs) r
       else
        .done (updateHand (trieFind t (acc ++ bs)) hand) (acc ++ bs) r) := by
  have hsp : bs.length ≤ d - acc.length := Nat.le_sub_of_add_le (by omega)
  have hc : bs.take (d - acc.length) = bs := List.take_of_length_le hsp
  simp only [matchLoop, hc, if_neg hbs, trieGet, hsp, if_pos]
  have hupd : (if (staysIn t (acc ++ bs) && (trieFind t (acc ++ bs)).isSome) = true
      then trieFind t (acc ++ bs) else hand)
      = updateHand (trieFind t (acc ++ bs)) hand := by
    cases hfind : trieFind t (acc ++ bs) with
    | some x =>
      have hstays : staysIn t (acc ++ bs) = true :=
        staysIn_of_mem (trieFind_mem hfind) List.prefix_rfl
      simp [hstays, updateHand]
    | none => simp [updateHand]
  rw [hupd]
  cases hext : extendsFurther t (acc ++ bs) <;> simp

theorem trieGet_next_eq {H : Type} {t : Trie H} {path c p2 : List Nat}
    (hg : (trieGet t path c).2.1 = some p2) : p2 = path ++ c := by
  simp only [trieGet] at hg
  by_cases he : extendsFurther t (path ++ c)
  · rw [if_pos he] at hg; exact (Option.some.inj hg).symm
  · rw [if_neg he] at hg; cases hg

/-- Byte accounting: when the loop breaks out, the bytes it accumulated
beyond its starting point, followed by the bytes the remaining stream
still delivers, are exactly the bytes the incoming stream delivers. -/
theorem matchLoop_consumes {H E : Type} (t : Trie H) (d : Nat) :
    ∀ (r : List (ReadRes E)) (hand : Option H) (acc : List Nat)
      (h2 : Option H) (a2 : List Nat) (rest : List (ReadRes E)),
      matchLoop t d hand acc r = .done h2 a2 rest →
      ∃ δ, a2 = acc ++ δ ∧ δ ++ readerBytes rest = readerBytes r
  | [], hand, acc, h2, a2, rest => by
    intro h
    simp only [matchLoop_nil, LoopRes.done.injEq] at h
    exact ⟨[], by simp [← h.2.1, ← h.2.2, readerBytes]⟩
  | .fail e :: r, hand, acc, h2, a2, rest => by
    intro h
    simp [matchLoop_fail] at h
  | .chunk bs :: r, hand, acc, h2, a2, rest => by
    intro h
    simp only [matchLoop] at h
    by_cases hc : bs.take (d - acc.length) = []
    · rw [if_pos hc] at h
      simp only [LoopRes.done.injEq] at h
      refine ⟨[], by simp [← h.2.1], ?_⟩
      rw [← h.2.2]
      by_cases hbs : bs = []
      · simp [hbs, readerBytes]
      · simp [if_neg hbs, readerBytes]
    · rw [if_neg hc] at h
      rcases hg : (trieGet t acc (bs.take (d - acc.length))).2.1 with _ | p2
      · simp only [hg] at h
        simp only [LoopRes.done.injEq] at h
        refine ⟨bs.take (d - acc.length), h.2.1.symm, ?_⟩
        rw [← h.2.2]
        by_cases hfit : bs.length ≤ d - acc.length
        · simp [if_pos hfit, readerBytes, List.take_of_length_le hfit]
        · rw [if_neg hfit]
          show _ ++ (_ ++ _) = _
          rw [readerBytes, ← List.append_assoc, List.take_append_drop]
      · simp only [hg] at h
        by_cases hfit : bs.length ≤ d - acc.length
        · rw [if_pos hfit] at h
          obtain ⟨δ, hδ1, hδ2⟩ := matchLoop_consumes t d r _ _ _ _ _ h
          have hp2 : p2 = acc ++ bs.take (d - acc.length) := trieGet_next_eq hg
          refine ⟨bs.take (d - acc.length) ++ δ, ?_, ?_⟩
          · rw [hδ1, hp2, List.append_assoc]
          · rw [List.append_assoc, hδ2, readerBytes, List.take_of_length_le hfit]
        · rw [if_neg hfit] at h
          simp only [LoopRes.done.injEq] at h
          refine ⟨bs.take (d - acc.length), h.2.1.symm, ?_⟩
          rw [← h.2.2]
          show _ ++ (_ ++ _) = _
          rw [readerBytes, ← List.append_assoc, List.take_append_drop]

/-- The loop never accumulates more bytes than the buffer holds. -/
theorem matchLoop_bytes_le {H E : Type} (t : Trie H) (d : Nat) :
    ∀ (r : List (ReadRes E)) (hand : Option H) (acc : List Nat),
      acc.length ≤ d → (matchLoop t d hand acc r).bytes.length ≤ d
  | [], hand, acc => by
    intro h; simpa [matchLoop_nil, LoopRes.bytes] using h
  | .fail e :: r, hand, acc => by
    intro h; simpa [matchLoop_fail, LoopRes.bytes] using h
  | .chunk bs :: r, hand, acc => by
    intro h
    simp only [matchLoop]
    have hlen : (acc ++ bs.take (d - acc.length)).length ≤ d := by
      simp only [List.length_append]
      have := List.length_take_le (d - acc.length) bs
      omega
    by_cases hc : bs.take (d - acc.length) = []
    · rw [if_pos hc]; simpa [LoopRes.bytes] using h
    · rw [if_neg hc]
      rcases hg : (trieGet t acc (bs.take (d - acc.length))).2.1 with _ | p2 <;>
        simp only [hg]
      · by_cases hfit : bs.length ≤ d - acc.length <;>
          simp only [if_pos, if_neg, hfit, LoopRes.bytes] <;>
          exact hlen
      · by_cases hfit : bs.length ≤ d - acc.length
        · rw [if_pos hfit]
          have hp2 : p2 = acc ++ bs.take (d - acc.length) := trieGet_next_eq hg
          refine matchLoop_bytes_le t d r _ _ ?_
          rw [hp2]; exact hlen
        · rw [if_neg hfit]; exact hlen

/-- Walking a registered pattern one byte per read: the loop traverses
every byte, remembers the pattern's handler at the final byte (a later
match overwrites whatever was remembered before), and consumes exactly
the pattern. -/
theorem matchLoop_bytewise {H E : Type} (t : Trie H) :
    ∀ (w acc : List Nat) (hand : Option H) (h : H),
      trieFind t (acc ++ w) = some h → w ≠ [] →
      acc.length + w.length ≤ trieDepth t →
      matchLoop (E := E) t (trieDepth t) hand acc
        (w.map fun b => .chunk [b]) = .done (some h) (acc ++ w) []
  | [], acc, hand, h => by intro _ hw _; exact absurd rfl hw
  | b :: w', acc, hand, h => by
    intro hf _ hlen
    have hstep := matchLoop_chunk_fits (E := E) t (trieDepth t) hand acc [b]
      ((w'.map fun b => ReadRes.chunk [b])) (by simp) (by simp at hlen ⊢; omega)
    rw [List.map_cons, hstep]
    by_cases hw' : w' = []
    · subst hw'
      have hf1 : trieFind t (acc ++ [b]) = some h := by
        simpa using hf
      have hupd : updateHand (trieFind t (acc ++ [b])) hand = some h := by
        rw [hf1]; rfl
      by_cases he : extendsFurther t (acc ++ [b]) = true
      · rw [if_pos he, hupd, List.map_nil, matchLoop_nil]
      · rw [if_neg he, hupd, List.map_nil]
    · have hf1 : trieFind t ((acc ++ [b]) ++ w') = some h := by
        rw [List.append_assoc]; simpa using hf
      have hne : acc ++ [b] ≠ (acc ++ [b]) ++ w' := by
        intro hcontra
        have hlen2 := congrArg List.length hcontra
        simp only [List.length_append] at hlen2
        exact hw' (List.length_eq_zero.mp (by omega))
      have hext : extendsFurther t (acc ++ [b]) = true :=
        extendsFurther_of_mem (trieFind_mem hf1) ⟨w', rfl⟩ hne
      rw [if_pos hext]
      have hrec := matchLoop_bytewise (E := E) t w' (acc ++ [b])
        (updateHand (trieFind t (acc ++ [b])) hand) h hf1 hw'
        (by simp at hlen ⊢; omega)
      rw [hrec, List.append_assoc]
      rfl

/-- Reading the wrapped stream delivers the buffered bytes first, then
whatever the underlying stream delivers. -/
theorem readerBytes_unread {E : Type} (r : List (ReadRes E)) (buf : List Nat) :
    readerBytes (UnreadConn r buf) = buf ++ readerBytes r := by
  unfold UnreadConn
  by_cases hb : buf = []
  · simp [hb]
  · rw [if_neg hb, readerBytes]

/-- `CMux.Handler` returns a handler whenever it returns no error. -/
theorem handler_some_of_error_none {H E : Type} (m : CMux H)
    (r : List (ReadRes E)) :
    (m.Handler r).error = none → ∃ h, (m.Handler r).handler = some h := by
  unfold CMux.Handler
  by_cases hsz : trieSize m.trie = 0
  · rw [if_pos hsz]
    cases m.notFound <;> simp
  · rw [if_neg hsz]
    rcases matchLoop m.trie (trieDepth m.trie) none [] r with
      ⟨hand, acc, rest⟩ | ⟨e, acc, rest⟩
    · cases hand with
      | none => cases m.notFound <;> simp
      | some h => simp
    · simp

/-- A full single-read step of the loop, also when the planned chunk
overflows the remaining buffer space: only the fitting part is taken,
the leftover stays in the stream. -/
theorem matchLoop_chunk_step {H E : Type} (t : Trie H) (d : Nat) (hand : Option H)
    (acc bs : List Nat) (r : List (ReadRes E))
    (hc : bs.take (d - acc.length) ≠ []) :
    matchLoop t d hand acc (.chunk bs :: r) =
      (if extendsFurther t (acc ++ bs.take (d - acc.length)) then
         (if bs.length ≤ d - acc.length then
            matchLoop t d (updateHand (trieFind t (acc ++ bs.take (d - acc.length))) hand)
              (acc ++ bs.take (d - acc.length)) r
          else .done (updateHand (trieFind t (acc ++ bs.take (d - acc.length))) hand)
              (acc ++ bs.take (d - acc.length)) (.chunk (bs.drop (d - acc.length)) :: r))
       else .done (updateHand (trieFind t (acc ++ bs.take (d - acc.length))) hand)
         (acc ++ bs.take (d - acc.length))
         (if bs.length ≤ d - acc.length then r
          else .chunk (bs.drop (d - acc.length)) :: r)) := by
  simp only [matchLoop, if_neg hc, trieGet]
  have hupd : (if (staysIn t (acc ++ bs.take (d - acc.length)) &&
        (trieFind t (acc ++ bs.take (d - acc.length))).isSome) = true
      then trieFind t (acc ++ bs.take (d - acc.length)) else hand)
      = updateHand (trieFind t (acc ++ bs.take (d - acc.length))) hand := by
    cases hfind : trieFind t (acc ++ bs.take (d - acc.length)) with
    | some x =>
      have hstays := staysIn_of_mem (trieFind_mem hfind) List.prefix_rfl
      simp [hstays, updateHand]
    | none => simp [updateHand]
  rw [hupd]
  cases hext : extendsFurther t (acc ++ bs.take (d - acc.length)) <;> simp

theorem trie_nonempty_size {H : Type} {m : CMux H} (hm : m.trie ≠ []) :
    ¬ trieSize m.trie = 0 := by
  simpa [trieSize, List.length_eq_zero] using hm

/-! ## The claims -/

/-- An index with patterns "AB" and "ABC" mapped to distinct handlers,
registered through the source registration operations. -/
def exAB : CMux Nat := (NewCMux.HandlePrefix 1 [[65, 66]]).HandlePrefix 2 [[65, 66, 67]]

/-- An index with patterns "A" and "ABC" mapped to distinct handlers. -/
def exA : CMux Nat := (NewCMux.HandlePrefix 1 [[65]]).HandlePrefix 2 [[65, 66, 67]]

/-- C2: the claim says a read failure after a successful partial read
does not fail the resolve operation.  The code refutes this: with
patterns "AB" and "ABC" registered, a stream that delivers "AB" (a
successful read that even matches the registered pattern "AB") and then
fails makes `Handler` return the read error — the loop had read two
bytes (`acc = [65, 66]` at the failure), yet resolution fails. -/
theorem claim2_counterexample :
    matchLoop exAB.trie (trieDepth exAB.trie) none []
        [ReadRes.chunk [65, 66], .fail 0] = .fail 0 [65, 66] [] ∧
    exAB.Handler [ReadRes.chunk [65, 66], .fail 0]
      = ⟨none, [], some (.readErr 0), []⟩ := by decide

/-- C2 (amended): a read failure always fails resolve: whenever a read
returns an error the loop propagates it, regardless of the remembered
handler and of how many bytes earlier reads delivered; `Handler` then
returns that error (with no handler and no consumed bytes).  Only a
zero-byte error-free read ends the loop without failing. -/
theorem claim2_read_error_always_propagates (m : CMux Nat) (t : Trie Nat)
    (d : Nat) (hand : Option Nat) (acc bs : List Nat) (e : Nat)
    (r : List (ReadRes Nat)) (hm : m.trie ≠ []) (hbs : bs ≠ [])
    (hlen : bs.length ≤ trieDepth m.trie)
    (hext : extendsFurther m.trie bs = true) :
    matchLoop t d hand acc (.fail e :: r) = .fail e acc r ∧
    m.Handler (.chunk bs :: .fail e :: r) = ⟨none, [], some (.readErr e), r⟩ := by
  refine ⟨matchLoop_fail t d hand acc e r, ?_⟩
  unfold CMux.Handler
  rw [if_neg (trie_nonempty_size hm)]
  rw [matchLoop_chunk_fits m.trie (trieDepth m.trie) none [] bs _ hbs
    (by simpa using hlen)]
  simp only [List.nil_append]
  rw [if_pos hext, matchLoop_fail]

/-- C3: the claim says every error result carries the bytes consumed so
far.  The code refutes this for propagated read failures: with patterns
"AB" and "ABC" registered, a stream delivering "A" and then failing
makes the loop fail after having read `[65]` (recorded as the `acc`
field of the loop result), but `Handler` returns `[]` as the consumed
bytes alongside the error. -/
theorem claim3_counterexample :
    matchLoop exAB.trie (trieDepth exAB.trie) none []
        [ReadRes.chunk [65], .fail 7] = .fail 7 [65] [] ∧
    exAB.Handler [ReadRes.chunk [65], .fail 7]
      = ⟨none, [], some (.readErr 7), []⟩ ∧
    ([] : List Nat) ≠ [65] := by decide

/-- C3 (amended): the bytes consumed so far are returned alongside the
`NotFound` error (both in the empty-index case, where they are empty,
and after the matching loop); a propagated read failure instead returns
empty consumed bytes — the bytes read before the failing read are not
returned. -/
theorem claim3_consumed_alongside_error (m : CMux Nat)
    (r rest : List (ReadRes Nat)) (acc : List Nat) (e : Nat) :
    (m.trie = [] → m.notFound = none →
      m.Handler r = ⟨none, [], some .notFound, r⟩) ∧
    (m.trie ≠ [] →
      matchLoop m.trie (trieDepth m.trie) none [] r = .done none acc rest →
      m.notFound = none → m.Handler r = ⟨none, acc, some .notFound, rest⟩) ∧
    (m.trie ≠ [] →
      matchLoop m.trie (trieDepth m.trie) none [] r = .fail e acc rest →
      m.Handler r = ⟨none, [], some (.readErr e), rest⟩) := by
  refine ⟨?_, ?_, ?_⟩
  · intro hm hnf
    have hsz : trieSize m.trie = 0 := by rw [hm]; rfl
    unfold CMux.Handler
    rw [if_pos hsz, hnf]
  · intro hm hl hnf
    unfold CMux.Handler
    rw [if_neg (trie_nonempty_size hm), hl, hnf]
  · intro hm hl
    unfold CMux.Handler
    rw [if_neg (trie_nonempty_size hm), hl]

/-- C4: with a non-empty pattern index, once the matching loop has ended
(`done`), the remembered handler is returned with exactly the bytes read
so far; with no remembered handler the fallback is returned with those
bytes; with no fallback either, resolve fails with the `NotFound`
sentinel, still carrying those bytes. -/
theorem claim4_post_loop_resolution (m : CMux Nat)
    (r rest : List (ReadRes Nat)) (hand : Option Nat) (acc : List Nat)
    (hm : m.trie ≠ [])
    (hl : matchLoop m.trie (trieDepth m.trie) none [] r = .done hand acc rest) :
    (∀ h, hand = some h → m.Handler r = ⟨some h, acc, none, rest⟩) ∧
    (hand = none → ∀ f, m.notFound = some f →
      m.Handler r = ⟨some f, acc, none, rest⟩) ∧
    (hand = none → m.notFound = none →
      m.Handler r = ⟨none, acc, some .notFound, rest⟩) := by
  unfold CMux.Handler
  rw [if_neg (trie_nonempty_size hm), hl]
  refine ⟨?_, ?_, ?_⟩
  · rintro h rfl; rfl
  · rintro rfl f hf; rw [hf]
  · rintro rfl hf; rw [hf]

/-- C5: with an empty pattern index, resolve performs no read at all
(the stream is returned untouched), consumes nothing, and returns the
fallback if one is set and the `NotFound` sentinel otherwise. -/
theorem claim5_empty_index (m : CMux Nat) (r : List (ReadRes Nat))
    (hm : m.trie = []) :
    (m.Handler r).rest = r ∧ (m.Handler r).consumed = [] ∧
    (m.notFound = none → m.Handler r = ⟨none, [], some .notFound, r⟩) ∧
    (∀ f, m.notFound = some f → m.Handler r = ⟨some f, [], none, r⟩) := by
  have hsz : trieSize m.trie = 0 := by rw [hm]; rfl
  unfold CMux.Handler
  rw [if_pos hsz]
  cases hnf : m.notFound <;> simp

/-- C6: `ServeConn` invokes at most one handler per stream: when
`Handler` reports an error the stream is closed and no handler is
invoked; when it succeeds, exactly the resolved handler is invoked, with
the stream wrapped so that the consumed bytes are replayed first. -/
theorem claim6_at_most_one_handler (m : CMux Nat) (conn : List (ReadRes Nat)) :
    (∀ e, (m.Handler conn).error = some e → m.ServeConn conn = .closed) ∧
    ((m.Handler conn).error = none →
      ∃ h, (m.Handler conn).handler = some h ∧
        m.ServeConn conn =
          .served h (UnreadConn (m.Handler conn).rest (m.Handler conn).consumed)) := by
  constructor
  · intro e he
    simp only [CMux.ServeConn, he]
  · intro he
    obtain ⟨h, hh⟩ := handler_some_of_error_none m conn he
    exact ⟨h, hh, by simp only [CMux.ServeConn, he, hh]⟩

/-- C7: with a non-empty pattern index, matching never accumulates more
bytes than the length of the longest registered pattern (the size of the
read buffer): both the loop's byte count and the consumed bytes returned
by `Handler` are bounded by `trieDepth`. -/
theorem claim7_consumed_bounded (m : CMux Nat) (r : List (ReadRes Nat))
    (hm : m.trie ≠ []) :
    (m.Handler r).consumed.length ≤ trieDepth m.trie ∧
    (matchLoop m.trie (trieDepth m.trie) none [] r).bytes.length
      ≤ trieDepth m.trie := by
  have hb := matchLoop_bytes_le m.trie (trieDepth m.trie) r none [] (by simp)
  refine ⟨?_, hb⟩
  unfold CMux.Handler
  rw [if_neg (trie_nonempty_size hm)]
  rcases hl : matchLoop m.trie (trieDepth m.trie) none [] r with
    ⟨hand, acc, rest⟩ | ⟨e, acc, rest⟩
  · rw [hl] at hb
    cases hand with
    | some h => exact hb
    | none => cases m.notFound <;> exact hb
  · simp

/-- C10: a zero-byte, error-free read ends the matching loop at once
(the loop never spins on zero-byte reads), keeping the handler and bytes
accumulated so far; when it is the first read, resolution proceeds to
the fallback if set and to the `NotFound` sentinel otherwise, with no
consumed bytes. -/
theorem claim10_zero_byte_read_terminates (t : Trie Nat) (d : Nat)
    (hand : Option Nat) (acc : List Nat) (r r2 : List (ReadRes Nat))
    (m : CMux Nat) (hm : m.trie ≠ []) :
    matchLoop t d hand acc (.chunk [] :: r) = .done hand acc r ∧
    (m.notFound = none →
      m.Handler (.chunk [] :: r2) = ⟨none, [], some .notFound, r2⟩) ∧
    (∀ f, m.notFound = some f →
      m.Handler (.chunk [] :: r2) = ⟨some f, [], none, r2⟩) := by
  refine ⟨matchLoop_chunk_nil t d hand acc r, ?_, ?_⟩
  · intro hnf
    unfold CMux.Handler
    rw [if_neg (trie_nonempty_size hm), matchLoop_chunk_nil, hnf]
  · intro f hnf
    unfold CMux.Handler
    rw [if_neg (trie_nonempty_size hm), matchLoop_chunk_nil, hnf]

/-- C9: for every successful resolution, the consumed bytes followed by
the bytes the remaining stream still delivers are exactly the bytes the
original stream delivers — and therefore reading the wrapped stream
handed to the handler reproduces, byte for byte and in order, what
reading the original stream with no matching would have produced. -/
theorem claim9_replay_fidelity (m : CMux Nat) (r : List (ReadRes Nat))
    (he : (m.Handler r).error = none) :
    (m.Handler r).consumed ++ readerBytes (m.Handler r).rest = readerBytes r ∧
    readerBytes (UnreadConn (m.Handler r).rest (m.Handler r).consumed)
      = readerBytes r := by
  suffices hmain :
      (m.Handler r).consumed ++ readerBytes (m.Handler r).rest = readerBytes r by
    exact ⟨hmain, by rw [readerBytes_unread]; exact hmain⟩
  unfold CMux.Handler at he ⊢
  by_cases hsz : trieSize m.trie = 0
  · rw [if_pos hsz] at he ⊢
    cases m.notFound <;> simp
  · rw [if_neg hsz] at he ⊢
    rcases hl : matchLoop m.trie (trieDepth m.trie) none [] r with
      ⟨hand, acc, rest⟩ | ⟨e, acc, rest⟩
    · rw [hl] at he
      obtain ⟨δ, hδ1, hδ2⟩ :=
        matchLoop_consumes m.trie (trieDepth m.trie) r none [] hand acc rest hl
      simp only [List.nil_append] at hδ1
      subst hδ1
      cases hand with
      | some h => simpa using hδ2
      | none =>
        cases hnf : m.notFound with
        | none => rw [hnf] at he; simp at he
        | some f => simpa using hδ2
    · rw [hl] at he
      simp at he

/-- C8: the claim says resolution is chunking-independent for every
registration state and byte sequence.  The code (with the pattern index
modelled from the spec, where a handler is reported only when the bytes
consumed so far exactly equal a registered pattern) refutes this: with
"A" and "ABC" registered, the bytes "AB" delivered one byte per read
resolve to the handler of "A", while the same bytes delivered in a
single read resolve to no handler — the exact match "A" inside the
two-byte chunk is never reported. -/
theorem claim8_counterexample :
    (exA.Handler (E := Nat) [.chunk [65], .chunk [66]]).handler = some 1 ∧
    (exA.Handler (E := Nat) [.chunk [65, 66]]).handler = none ∧
    readerBytes [ReadRes.chunk (E := Nat) [65], .chunk [66]]
      = readerBytes [ReadRes.chunk (E := Nat) [65, 66]] := by decide

/-- C8 (amended): chunking-independence holds when the delivered byte
sequence exactly equals a registered pattern: a stream delivering the
pattern one byte per read and a stream delivering it in a single read
both resolve to that pattern's handler. -/
theorem claim8_chunking_agrees_on_patterns (m : CMux Nat) (w : List Nat)
    (h : Nat) (hf : trieFind m.trie w = some h) (hw : w ≠ []) :
    (m.Handler (E := Nat) (w.map fun b => .chunk [b])).handler = some h ∧
    (m.Handler (E := Nat) [.chunk w]).handler = some h := by
  have hmem := trieFind_mem hf
  have hm : m.trie ≠ [] := trie_ne_nil_of_mem hmem
  have hdep : w.length ≤ trieDepth m.trie := mem_length_le_depth hmem
  constructor
  · unfold CMux.Handler
    rw [if_neg (trie_nonempty_size hm)]
    have hbw := matchLoop_bytewise (E := Nat) m.trie w [] none h
      (by simpa using hf) hw (by simpa using hdep)
    rw [hbw]
  · unfold CMux.Handler
    rw [if_neg (trie_nonempty_size hm)]
    rw [matchLoop_chunk_fits m.trie (trieDepth m.trie) none [] w []
      hw (by simpa using hdep)]
    simp only [List.nil_append]
    have hupd : updateHand (trieFind m.trie w) none = some h := by rw [hf]; rfl
    by_cases hext : extendsFurther m.trie w = true
    · rw [if_pos hext, hupd, matchLoop_nil]
    · rw [if_neg hext, hupd]

/-- C1: longest-registered-pattern wins.  With a shorter pattern `p` and
a longer pattern `q` (of which `p` is a proper leading part) registered
to handlers `h1` and `h2`: a stream whose bytes extend through `q`
resolves to `h2` with exactly `q` as consumed bytes; a stream that
cleanly ends after delivering only `p` resolves to `h1` with `p` as
consumed bytes; and delivering `p` first and the remainder of `q` next
shows the overwrite: `h1` is remembered at the first read and the later,
longer match `h2` replaces it. -/
theorem claim1_longest_registered_wins (p q u : List Nat) (h1 h2 : Nat)
    (hp : p ≠ []) (hpq : p <+: q) (hne : p ≠ q) (h12 : h1 ≠ h2)
    (hqu : q <+: u) :
    (((NewCMux.HandlePrefix h1 [p]).HandlePrefix h2 [q]).Handler (E := Nat)
        [.chunk u]).handler = some h2 ∧
    (((NewCMux.HandlePrefix h1 [p]).HandlePrefix h2 [q]).Handler (E := Nat)
        [.chunk u]).consumed = q ∧
    (((NewCMux.HandlePrefix h1 [p]).HandlePrefix h2 [q]).Handler (E := Nat)
        [.chunk u]).error = none ∧
    ((NewCMux.HandlePrefix h1 [p]).HandlePrefix h2 [q]).Handler (E := Nat)
        [.chunk p] = ⟨some h1, p, none, []⟩ ∧
    ((NewCMux.HandlePrefix h1 [p]).HandlePrefix h2 [q]).Handler (E := Nat)
        [.chunk p, .chunk (q.drop p.length)] = ⟨some h2, q, none, []⟩ := by
  obtain ⟨tl, rfl⟩ := hpq
  obtain ⟨tu, rfl⟩ := hqu
  have htl : tl ≠ [] := fun h => hne (by rw [h, List.append_nil])
  have hlt : p.length < (p ++ tl).length := by
    have := List.length_pos.mpr htl
    simp only [List.length_append]; omega
  have htrie : ((NewCMux.HandlePrefix h1 [p]).HandlePrefix h2 [p ++ tl]).trie
      = [(p, h1), (p ++ tl, h2)] := by
    simp [CMux.HandlePrefix, NewCMux, triePut, hne]
  have hsz : ¬ trieSize [(p, h1), (p ++ tl, h2)] = 0 := by simp [trieSize]
  have hdep : trieDepth [(p, h1), (p ++ tl, h2)] = (p ++ tl).length := by
    simp only [trieDepth, List.foldr_cons, List.foldr_nil, Nat.max_zero]
    omega
  have hfp : trieFind [(p, h1), (p ++ tl, h2)] p = some h1 := by
    unfold trieFind
    rw [List.find?_cons_of_pos _ (by simp)]
    rfl
  have hfq : trieFind [(p, h1), (p ++ tl, h2)] (p ++ tl) = some h2 := by
    unfold trieFind
    have hcond : ¬ (((p, h1).1 == p ++ tl) = true) := by
      simp only [beq_iff_eq]
      exact hne
    rw [List.find?_cons_of_neg (p := fun e : List Nat × Nat => e.1 == p ++ tl) _ hcond,
      List.find?_cons_of_pos _ (by simp)]
    rfl
  have hextp : extendsFurther [(p, h1), (p ++ tl, h2)] p = true :=
    extendsFurther_of_mem (k := p ++ tl) (v := h2) (by simp) ⟨tl, rfl⟩ hne
  have hnqp : ¬ (p ++ tl <+: p) := by
    intro hcon
    have := hcon.length_le
    omega
  have hextq : ¬ extendsFurther [(p, h1), (p ++ tl, h2)] (p ++ tl) = true := by
    simp [extendsFurther, hnqp]
  have hlenp : ([] : List Nat).length + p.length ≤ (p ++ tl).length :=
    Nat.le_of_lt (by simpa using hlt)
  -- scenario (i): one read delivering all of `p ++ tl ++ tu`
  have hloop1 : ∃ R, matchLoop (E := Nat) [(p, h1), (p ++ tl, h2)]
      (p ++ tl).length none [] [.chunk (p ++ tl ++ tu)]
      = .done (some h2) (p ++ tl) R := by
    have hc : (p ++ tl ++ tu).take ((p ++ tl).length - ([] : List Nat).length)
        ≠ [] := by
      simp only [List.length_nil, Nat.sub_zero, List.take_left]
      simp [hp]
    rw [matchLoop_chunk_step _ _ _ _ _ _ hc]
    simp only [List.length_nil, Nat.sub_zero, List.take_left, List.nil_append]
    rw [if_neg hextq, hfq]
    exact ⟨_, rfl⟩
  obtain ⟨R, hloop1⟩ := hloop1
  -- scenario (ii): one read delivering exactly `p`, then clean end
  have hloop2 : matchLoop (E := Nat) [(p, h1), (p ++ tl, h2)]
      (p ++ tl).length none [] [.chunk p] = .done (some h1) p [] := by
    rw [matchLoop_chunk_fits _ _ _ _ _ _ hp hlenp]
    simp only [List.nil_append]
    rw [if_pos hextp, hfp, matchLoop_nil]
    rfl
  -- scenario (iii): `p` first, the remainder of the longer pattern next
  have hloop3 : matchLoop (E := Nat) [(p, h1), (p ++ tl, h2)]
      (p ++ tl).length none [] [.chunk p, .chunk tl]
      = .done (some h2) (p ++ tl) [] := by
    rw [matchLoop_chunk_fits _ _ _ _ _ _ hp hlenp]
    simp only [List.nil_append]
    rw [if_pos hextp, hfp]
    rw [matchLoop_chunk_fits _ _ _ _ _ _ htl (by simp)]
    rw [if_neg hextq, hfq]
    rfl
  have hdrop : (p ++ tl).drop p.length = tl := List.drop_left p tl
  refine ⟨?_, ?_, ?_, ?_, ?_⟩ <;>
    unfold CMux.Handler <;>
    rw [htrie, hdep, if_neg hsz]
  · rw [hloop1]
  · rw [hloop1]
  · rw [hloop1]
  · rw [hloop2]
  · rw [hdrop, hloop3]

/-! ## Witnesses: the claim theorems applied at concrete inputs -/

theorem claim1_witness :
    ((NewCMux.HandlePrefix 1 [[65, 66]]).HandlePrefix 2 [[65, 66, 67]]).Handler
        (E := Nat) [.chunk [65, 66]]
      = ⟨some 1, [65, 66], none, []⟩ :=
  (claim1_longest_registered_wins [65, 66] [65, 66, 67] [65, 66, 67, 68] 1 2
    (by decide) ⟨[67], rfl⟩ (by decide) (by decide) ⟨[68], rfl⟩).2.2.2.1

theorem claim2_witness :
    exAB.Handler (E := Nat) (.chunk [65] :: .fail 3 :: [.chunk [9]])
      = ⟨none, [], some (.readErr 3), [.chunk [9]]⟩ :=
  (claim2_read_error_always_propagates exAB exAB.trie 3 none [] [65] 3
    [.chunk [9]] (by decide) (by decide) (by decide) (by decide)).2

theorem claim3_witness :
    exAB.Handler (E := Nat) [.chunk [65], .fail 7]
      = ⟨none, [], some (.readErr 7), []⟩ :=
  (claim3_consumed_alongside_error exAB [.chunk [65], .fail 7] [] [65] 7).2.2
    (by decide) (by decide)

theorem claim4_witness :
    exAB.Handler (E := Nat) [.chunk [65, 66, 67]]
      = ⟨some 2, [65, 66, 67], none, []⟩ :=
  (claim4_post_loop_resolution exAB [.chunk [65, 66, 67]] [] (some 2)
    [65, 66, 67] (by decide) (by decide)).1 2 rfl

theorem claim5_witness :
    (NewCMux (H := Nat)).Handler [ReadRes.chunk (E := Nat) [65]]
      = ⟨none, [], some .notFound, [.chunk [65]]⟩ :=
  (claim5_empty_index NewCMux [.chunk [65]] rfl).2.2.1 rfl

theorem claim6_witness :
    exAB.ServeConn [ReadRes.fail (E := Nat) 0] = .closed :=
  (claim6_at_most_one_handler exAB [.fail 0]).1 (.readErr 0) (by decide)

theorem claim7_witness :
    (exAB.Handler [ReadRes.chunk (E := Nat) [65, 66, 67, 68, 69]]).consumed.length
      ≤ trieDepth exAB.trie :=
  (claim7_consumed_bounded exAB [.chunk [65, 66, 67, 68, 69]] (by decide)).1

theorem claim8_witness :
    (exA.Handler (E := Nat) ([65, 66, 67].map fun b => .chunk [b])).handler
        = some 2 ∧
    (exA.Handler (E := Nat) [.chunk [65, 66, 67]]).handler = some 2 :=
  claim8_chunking_agrees_on_patterns exA [65, 66, 67] 2 (by decide) (by decide)

theorem claim9_witness :
    (exAB.Handler (E := Nat) [.chunk [65, 66], .chunk [67, 68]]).consumed
        ++ readerBytes (exAB.Handler (E := Nat) [.chunk [65, 66], .chunk [67, 68]]).rest
      = readerBytes [ReadRes.chunk (E := Nat) [65, 66], .chunk [67, 68]] ∧
    readerBytes (UnreadConn (exAB.Handler (E := Nat) [.chunk [65, 66], .chunk [67, 68]]).rest
        (exAB.Handler (E := Nat) [.chunk [65, 66], .chunk [67, 68]]).consumed)
      = readerBytes [ReadRes.chunk (E := Nat) [65, 66], .chunk [67, 68]] :=
  claim9_replay_fidelity exAB [.chunk [65, 66], .chunk [67, 68]] (by decide)

theorem claim10_witness :
    matchLoop (E := Nat) exAB.trie 3 (some 5) [65] (.chunk [] :: [.fail 9])
      = .done (some 5) [65] [.fail 9] :=
  (claim10_zero_byte_read_terminates exAB.trie 3 (some 5) [65] [.fail 9]
    [.chunk [66]] exAB (by decide)).1

end Cmux
